import Mathlib

/-
Verification of the cryptoquip solver in quip.c.

The development shallowly embeds the data model and the operations of the
solver: characters are modelled as ASCII code points of type Int (char
values on the reference platform are signed, and one lookup path below can
produce a negative char value), strings as lists of such code points, and
the legend as its 26-slot array, a list of 26 Int slots where 0 is the
unassigned marker.  Functions that mutate a legend in place in the C code
are modelled as functions returning the final value of that legend next to
their C return value.  NULL-pointer arguments are modelled with Option
where a claim mentions them (DoPatternsMatch) and omitted where the claims
assume non-null arguments.  Wall-clock time, read by time(NULL) inside the
word-block attack, is modelled as a frozen clock: every reading returns
the start instant, so the elapsed time is the constant 0.  The claims
settled against the word-block attack do not concern clock progression:
the non-positive-budget gate and the legend frame behaviour are decided
before, respectively independently of, any clock reading.
-/

namespace Quip

/-- ASCII test for a lowercase letter, as C islower restricted to ASCII. -/
def islowerC (c : Int) : Bool := decide (97 ≤ c ∧ c ≤ 122)

/-- ASCII test for an uppercase letter, as C isupper restricted to ASCII. -/
def isupperC (c : Int) : Bool := decide (65 ≤ c ∧ c ≤ 90)

/-- ASCII test for a letter, as C isalpha restricted to ASCII. -/
def isalphaC (c : Int) : Bool := isupperC c || islowerC c

/-- ASCII test for punctuation, as C ispunct restricted to ASCII: a printable
character that is neither alphanumeric nor the space. -/
def ispunctC (c : Int) : Bool :=
  decide ((33 ≤ c ∧ c ≤ 47) ∨ (58 ≤ c ∧ c ≤ 64) ∨ (91 ≤ c ∧ c ≤ 96) ∨ (123 ≤ c ∧ c ≤ 126))

/-- ASCII lowercasing, as C tolower restricted to ASCII. -/
def tolowerC (c : Int) : Int := if 65 ≤ c ∧ c ≤ 90 then c + 32 else c

/-- The legend of quip.c: an array of 26 char slots indexed by cipher letter,
slot value 0 meaning unassigned.  Modelled as a list of 26 Int values. -/
abbrev Legend := List Int

/-- A legend with every slot unassigned, as produced by CreateLegend before
its single assignment (the all-zero initialisation loop). -/
def emptyLegend : Legend := List.replicate 26 0

/-- Slot of the legend addressed by the (lowercased) character c, the value
map[tolower(c) - a] read by the legend lookups of quip.c. -/
def legendSlot (map : Legend) (c : Int) : Int := map.getD (tolowerC c - 97).toNat 0

/-- CypherToPlainChar of quip.c (lines 910-941): lowercase the input when it
is uppercase, remember the case, look the lowercase letter up in the legend
and add back the case offset A minus a (that is, subtract 32); a character
that is not a letter after the case fold is returned unchanged. -/
def CypherToPlainChar (map : Legend) (c : Int) : Int :=
  let upperCase := isupperC c
  let r := if isupperC c then tolowerC c else c
  if islowerC r then map.getD (r - 97).toNat 0 + (if upperCase then -32 else 0) else r

/-- First index of the value t in the list, the back-search loop of
PlainToCypherChar over the 26 slots. -/
def backSearch : List Int → Int → Option Nat
  | [], _ => none
  | v :: rest, t => if v = t then some 0 else (backSearch rest t).map (· + 1)

/-- PlainToCypherChar of quip.c (lines 949-988): lowercase the input when it
is uppercase, remember the case, scan the 26 slots for the first one holding
that lowercase letter and return its cipher letter with the case restored;
when no slot holds it the (lowercased) input is returned unchanged, and a
non-letter input is returned unchanged. -/
def PlainToCypherChar (map : Legend) (c : Int) : Int :=
  let upperCase := isupperC c
  let r := if isupperC c then tolowerC c else c
  if islowerC r then
    match backSearch map r with
    | some i => (i : Int) + 97 + (if upperCase then -32 else 0)
    | none => r
  else r

/-- CypherToPlainString of quip.c (lines 999-1055): a fresh string of the
same length, converted character by character through CypherToPlainChar. -/
def CypherToPlainString (map : Legend) (cyphertext : List Int) : List Int :=
  cyphertext.map (CypherToPlainChar map)

/-- PlainToCypherString of quip.c (lines 1066-1122): a fresh string of the
same length, converted character by character through PlainToCypherChar. -/
def PlainToCypherString (map : Legend) (plaintext : List Int) : List Int :=
  plaintext.map (PlainToCypherChar map)

/-- DoPatternsMatch of quip.c (lines 235-293).  Two NULL arguments match
vacuously; exactly one NULL argument, or differing lengths, is a mismatch;
otherwise every pair of positions i < j is checked for a repetition in one
string that the other string does not mirror at the same two positions. -/
def DoPatternsMatch : Option (List Int) → Option (List Int) → Bool
  | none, none => true
  | none, some _ => false
  | some _, none => false
  | some ct, some pt =>
    if ct.length ≠ pt.length then false
    else
      (List.range ct.length).all (fun i =>
        (List.range ct.length).all (fun j =>
          if i < j then
            !((ct.getD j 0 == ct.getD i 0 && pt.getD j 0 != pt.getD i 0) ||
              (pt.getD j 0 == pt.getD i 0 && ct.getD j 0 != ct.getD i 0))
          else true))

/-- Position loop of CanCypherAndLegendMakePlain (lines 309-375): at each
position the candidate plain char ppc is the legend image of the lowercased
cipher char; an unassigned image (ppc = 0) fails only under mustBeComplete,
and an assigned image must agree with the plaintext case-insensitively. -/
def canMapLoop (map : Legend) (mustBeComplete : Bool) : List Int → List Int → Bool
  | [], _ => true
  | _ :: _, [] => true
  | c :: cs, p :: ps =>
    let ppc := CypherToPlainChar map (tolowerC c)
    if ppc = 0 ∧ mustBeComplete = true then false
    else if ppc ≠ 0 ∧ tolowerC ppc ≠ tolowerC p then false
    else canMapLoop map mustBeComplete cs ps

/-- CanCypherAndLegendMakePlain of quip.c (lines 309-375): reject on length
mismatch, then run the position loop.  The NULL-argument error paths are not
modelled; the claims assume non-null arguments. -/
def CanCypherAndLegendMakePlain (cyphertext : List Int) (map : Legend)
    (plaintext : List Int) (mustBeComplete : Bool) : Bool :=
  if cyphertext.length ≠ plaintext.length then false
  else canMapLoop map mustBeComplete cyphertext plaintext

/-- A cypherword of quip.c: the cipher token and its ordered list of possible
plaintext words (the length field of the C struct is the list length). -/
structure CW where
  cyphertext : List Int
  possiblePlaintext : List (List Int)
deriving DecidableEq

/-- GetPossibleOfCypherwordForLegend of quip.c (lines 389-434): the first
possible plaintext of the word that the legend can make from the cipher
token, or none. -/
def GetPossibleOfCypherwordForLegend (word : CW) (map : Legend) (mustBeComplete : Bool) :
    Option (List Int) :=
  word.possiblePlaintext.find? (fun p =>
    CanCypherAndLegendMakePlain word.cyphertext map p mustBeComplete)

/-- IsCypherwordDecryptedByLegend of quip.c (lines 447-483): the legend
totally decodes the word into one of its possibles, that is the complete
lookup succeeds. -/
def IsCypherwordDecryptedByLegend (word : CW) (map : Legend) : Bool :=
  (GetPossibleOfCypherwordForLegend word map true).isSome

/-- Character loop of IncorporateCypherToPlainMapInLegend (lines 2252-2306).
At each position, lowercase both characters; punctuation must align on both
sides (aligned punctuation is skipped); an assigned cipher slot must agree
with the new plain char; an unassigned one requires the plain char to be
claimed by none of the 26 slots; the surviving pair is then written into the
slot.  Failure stops the loop at once, leaving the slots written so far. -/
def incorpLoop : List Int → List Int → Legend → Bool × Legend
  | [], _, map => (true, map)
  | _ :: _, [], map => (true, map)
  | c :: cs, p :: ps, map =>
    let cc := tolowerC c
    let pc := tolowerC p
    if (ispunctC cc && !ispunctC pc) || (!ispunctC cc && ispunctC pc) then (false, map)
    else if ispunctC cc && ispunctC pc then incorpLoop cs ps map
    else
      let idx := (cc - 97).toNat
      if map.getD idx 0 ≠ 0 then
        if map.getD idx 0 ≠ pc then (false, map)
        else incorpLoop cs ps (map.set idx pc)
      else if (List.range 26).any (fun j => map.getD j 0 == pc) then (false, map)
      else incorpLoop cs ps (map.set idx pc)

/-- IncorporateCypherToPlainMapInLegend of quip.c (lines 2211-2309): NULL
checks are not modelled (the claims assume non-null arguments); a length
mismatch fails before any slot is touched; otherwise the character loop runs.
The returned legend is the final value of the in-place mutated argument. -/
def IncorporateCypherToPlainMapInLegend (cyphertext plaintext : List Int) (map : Legend) :
    Bool × Legend :=
  if cyphertext.length ≠ plaintext.length then (false, map)
  else incorpLoop cyphertext plaintext map

/-- A sequence of incorporate calls on one legend, stopping at the first
failure: the shape quantified over by the injectivity invariant. -/
def incorporateSeq : List (List Int × List Int) → Legend → Option Legend
  | [], map => some map
  | (ct, pt) :: rest, map =>
    match IncorporateCypherToPlainMapInLegend ct pt map with
    | (true, m2) => incorporateSeq rest m2
    | (false, _) => none

/-- TestFreqAttackLegend of quip.c (lines 1922-2021): count the cypherwords
the legend fully decodes (hits) and whether any is missed; when hits exceed
zero or nothing was missed, decode the whole ciphertext and append it to the
result collection unless the identical string is already present.  The
collection is the plainText global; allocation failure is not modelled. -/
def TestFreqAttackLegend (ws : List CW) (initialCyphertext : List Int) (map : Legend)
    (plainTexts : List (List Int)) : List (List Int) :=
  let hits := ws.countP (fun w => IsCypherwordDecryptedByLegend w map)
  let missed := ws.any (fun w => !IsCypherwordDecryptedByLegend w map)
  if hits > 0 || !missed then
    let decoded := CypherToPlainString map initialCyphertext
    if decoded ∈ plainTexts then plainTexts else plainTexts ++ [decoded]
  else plainTexts

/-- Elapsed wall-clock time between two readings of time(NULL) under the
frozen-clock model: always 0. -/
def elapsedTime : Int := 0

mutual

/-- DoWordBlockAttack of quip.c (lines 2040-2201), on the suffix of the
global cypherword array starting at cypherwordIndex.  A non-positive time
budget fails before anything else; otherwise the loop over the possibles of
the current word runs.  The result carries the C return value, the final
value of the caller-owned legend (which the last-word case mutates in
place), and the final result collection. -/
def DoWordBlockAttack (ict : List Int) (ws : List CW) (map : Legend) (maxSec : Int)
    (st : List (List Int)) : Bool × Legend × List (List Int) :=
  if maxSec ≤ 0 then (false, map, st)
  else
    match ws with
    | [] => (true, map, st)
    | cw :: rest => wbaLoop ict cw.cyphertext rest cw.possiblePlaintext map maxSec st
termination_by (ws.length + 1, 0)

/-- Candidate loop of DoWordBlockAttack (lines 2057-2196).  For each possible
of the current word that the legend can still make (holes allowed): at the
last word, incorporate directly into the caller-owned legend and on success
record the full decoding if new; otherwise check the remaining budget,
duplicate the legend, incorporate into the duplicate and recurse into the
next word with it, discarding the duplicate afterwards (only the collection
survives the recursive call; its Boolean result is ignored, as in the C).
After each iteration the elapsed time is checked once more. -/
def wbaLoop (ict cw : List Int) (rest : List CW) (cands : List (List Int)) (map : Legend)
    (maxSec : Int) (st : List (List Int)) : Bool × Legend × List (List Int) :=
  match cands with
  | [] => (true, map, st)
  | c :: cs =>
    let step : Bool × Legend × List (List Int) :=
      if CanCypherAndLegendMakePlain cw map c false then
        match rest with
        | [] =>
          match IncorporateCypherToPlainMapInLegend cw c map with
          | (true, m2) =>
            let decoded := CypherToPlainString m2 ict
            (true, m2, if decoded ∈ st then st else st ++ [decoded])
          | (false, m2) => (true, m2, st)
        | w2 :: rest2 =>
          if maxSec - elapsedTime ≤ 0 then (false, map, st)
          else
            match IncorporateCypherToPlainMapInLegend cw c map with
            | (true, nextGen) =>
              (true, map,
                (DoWordBlockAttack ict (w2 :: rest2) nextGen (maxSec - elapsedTime) st).2.2)
            | (false, _) => (true, map, st)
      else (true, map, st)
    match step with
    | (false, m2, st2) => (false, m2, st2)
    | (true, m2, st2) =>
      if elapsedTime ≥ maxSec then (false, m2, st2) else wbaLoop ict cw rest cs m2 maxSec st2
termination_by (rest.length + 1, cands.length)

end

/-- Injectivity invariant on a legend: no plain letter (nonzero slot value)
occupies two distinct cipher slots. -/
def LegendInjective (map : Legend) : Prop :=
  ∀ i, i < 26 → ∀ j, j < 26 → i ≠ j → map.getD i 0 ≠ 0 → map.getD i 0 ≠ map.getD j 0

/-- A character the solver actually feeds into incorporate: a letter or a
punctuation mark (the C code has undefined behaviour on anything else, since
it would index the slot array out of range). -/
def WFc (c : Int) : Prop := isalphaC c = true ∨ ispunctC c = true

/-- A text whose characters are all letters or punctuation. -/
def WFText (s : List Int) : Prop := ∀ c ∈ s, WFc c

instance (map : Legend) : Decidable (LegendInjective map) := by
  unfold LegendInjective
  infer_instance

instance (c : Int) : Decidable (WFc c) := by
  unfold WFc
  infer_instance

instance (s : List Int) : Decidable (WFText s) := by
  unfold WFText
  infer_instance

/-- The position-wise acceptance condition that claim C4 ascribes to
CanCypherAndLegendMakePlain without mustBeComplete: no position whose cipher
character the legend maps disagrees case-insensitively with the plaintext
character there.  Stated from the words of the claim, to be compared with
the embedded code. -/
def NoMappedDisagreement (cyphertext plaintext : List Int) (map : Legend) : Prop :=
  ∀ i, i < cyphertext.length →
    isalphaC (cyphertext.getD i 0) = true →
    legendSlot map (cyphertext.getD i 0) ≠ 0 →
    tolowerC (legendSlot map (cyphertext.getD i 0)) = tolowerC (plaintext.getD i 0)

/-- Legend assigning plain b to cipher a and nothing else. -/
def legendAB : Legend := List.set emptyLegend 0 98

/-- The identity full bijection as a legend: cipher letter i maps to plain
letter i, every slot assigned. -/
def idLegend : Legend := (List.range 26).map (fun i => (i : Int) + 97)

/-! Character-class facts shared by the proofs below. -/

theorem islowerC_eq_true {c : Int} : islowerC c = true ↔ 97 ≤ c ∧ c ≤ 122 := by
  simp [islowerC]

theorem isupperC_eq_true {c : Int} : isupperC c = true ↔ 65 ≤ c ∧ c ≤ 90 := by
  simp [isupperC]

theorem isalphaC_eq_true {c : Int} :
    isalphaC c = true ↔ (65 ≤ c ∧ c ≤ 90) ∨ (97 ≤ c ∧ c ≤ 122) := by
  simp [isalphaC, isupperC, islowerC]

theorem ispunctC_eq_true {c : Int} :
    ispunctC c = true ↔
      (33 ≤ c ∧ c ≤ 47) ∨ (58 ≤ c ∧ c ≤ 64) ∨ (91 ≤ c ∧ c ≤ 96) ∨ (123 ≤ c ∧ c ≤ 126) := by
  simp [ispunctC]

theorem tolowerC_of_upper {c : Int} (h : 65 ≤ c ∧ c ≤ 90) : tolowerC c = c + 32 := by
  rw [tolowerC, if_pos h]

theorem tolowerC_of_not_upper {c : Int} (h : ¬(65 ≤ c ∧ c ≤ 90)) : tolowerC c = c := by
  rw [tolowerC, if_neg h]

theorem ctpc_lower (map : Legend) {c : Int} (h1 : 97 ≤ c) (h2 : c ≤ 122) :
    CypherToPlainChar map c = legendSlot map c := by
  have hu : isupperC c = false := by simp [isupperC]; omega
  have hl : islowerC c = true := by simp [islowerC]; omega
  have ht : tolowerC c = c := tolowerC_of_not_upper (by omega)
  simp [CypherToPlainChar, legendSlot, hu, hl, ht]

theorem ctpc_upper (map : Legend) {c : Int} (h1 : 65 ≤ c) (h2 : c ≤ 90) :
    CypherToPlainChar map c = legendSlot map c + (-32) := by
  have hu : isupperC c = true := by simp [isupperC]; omega
  have ht : tolowerC c = c + 32 := tolowerC_of_upper ⟨h1, h2⟩
  have hl : islowerC (c + 32) = true := by simp [islowerC]; omega
  simp [CypherToPlainChar, legendSlot, hu, ht, hl]

theorem ctpc_not_alpha (map : Legend) {c : Int} (h : isalphaC c = false) :
    CypherToPlainChar map c = c := by
  have hna : ¬((65 ≤ c ∧ c ≤ 90) ∨ (97 ≤ c ∧ c ≤ 122)) := by
    intro hcon
    exact absurd (isalphaC_eq_true.mpr hcon) (by simp [h])
  have hu : isupperC c = false := by simp [isupperC]; omega
  have hl : islowerC c = false := by simp [islowerC]; omega
  simp [CypherToPlainChar, hu, hl]

/-- C5 (amended): CypherToPlainChar returns the legend slot of a lowercase
letter unchanged (so the literal unassigned marker 0 when the slot is
unassigned); for an uppercase letter it returns the slot value plus the case
offset A minus a, so an assigned uppercase letter comes back as the
uppercase of the mapped plain letter, while an unassigned uppercase letter
comes back as marker plus offset, namely -32, not the literal marker; a
non-alphabetic character passes through unchanged. -/
theorem cypherToPlainChar_cases (map : Legend) (c v : Int) (hv : legendSlot map c = v) :
    (isalphaC c = false → CypherToPlainChar map c = c) ∧
    (islowerC c = true → CypherToPlainChar map c = v) ∧
    (isupperC c = true → CypherToPlainChar map c = v + (-32)) ∧
    (isupperC c = true → 97 ≤ v → v ≤ 122 →
      isupperC (CypherToPlainChar map c) = true ∧ tolowerC (CypherToPlainChar map c) = v) := by
  refine ⟨fun h => ctpc_not_alpha map h, fun h => ?_, fun h => ?_, fun h h1 h2 => ?_⟩
  · obtain ⟨h1, h2⟩ := islowerC_eq_true.mp h
    rw [ctpc_lower map h1 h2, hv]
  · obtain ⟨h1, h2⟩ := isupperC_eq_true.mp h
    rw [ctpc_upper map h1 h2, hv]
  · obtain ⟨ha, hb⟩ := isupperC_eq_true.mp h
    rw [ctpc_upper map ha hb, hv]
    constructor
    · simp [isupperC]; omega
    · rw [tolowerC_of_upper (by omega)]; omega

/-- C5 witness: on the legend mapping cipher a to plain b, the lowercase
input a comes back as the assigned slot value b. -/
theorem cypherToPlainChar_cases_witness :
    legendSlot legendAB 97 = 98 ∧ CypherToPlainChar legendAB 97 = 98 :=
  ⟨by decide, (cypherToPlainChar_cases legendAB 97 98 (by decide)).2.1 (by decide)⟩

/-- C5 counterexample: the uppercase letter A on an empty legend is
alphabetic with an unassigned slot, yet CypherToPlainChar returns -32, not
the literal unassigned marker 0. -/
theorem cypherToPlainChar_upper_unmapped_counterexample :
    isalphaC 65 = true ∧ legendSlot emptyLegend 65 = 0 ∧
    CypherToPlainChar emptyLegend 65 = -32 ∧ CypherToPlainChar emptyLegend 65 ≠ 0 := by
  decide

/-- C6 counterexample: with both inputs NULL, DoPatternsMatch reports a
match, not the no-match the claim requires for a null input. -/
theorem doPatternsMatch_null_counterexample :
    ¬(DoPatternsMatch none none = false) := by decide

/-- C6 (amended): DoPatternsMatch reports no match when exactly one input is
NULL, or when both are non-null with unequal lengths; two NULL inputs match
vacuously. -/
theorem doPatternsMatch_contract (x y : List Int) :
    DoPatternsMatch none (some y) = false ∧
    DoPatternsMatch (some x) none = false ∧
    (x.length ≠ y.length → DoPatternsMatch (some x) (some y) = false) ∧
    DoPatternsMatch (none : Option (List Int)) none = true := by
  refine ⟨rfl, rfl, fun h => ?_, rfl⟩
  simp only [DoPatternsMatch]
  rw [if_pos h]

/-- C6 witness: strings of lengths one and two never pattern-match. -/
theorem doPatternsMatch_contract_witness :
    [(97 : Int)].length ≠ [(98 : Int), 99].length ∧
    DoPatternsMatch (some [97]) (some [98, 99]) = false :=
  ⟨by decide, (doPatternsMatch_contract [97] [98, 99]).2.2.1 (by decide)⟩

/-- C9: the Word-Block solver with a non-positive time budget fails
immediately, returning the legend and the result collection unchanged,
before looking at any candidate. -/
theorem wordBlockAttack_nonpositive_budget (ict : List Int) (ws : List CW) (map : Legend)
    (maxSec : Int) (st : List (List Int)) (h : maxSec ≤ 0) :
    DoWordBlockAttack ict ws map maxSec st = (false, map, st) := by
  rw [DoWordBlockAttack.eq_def]
  simp [h]

/-- C9 witness: a zero budget on a one-word problem fails at once with
nothing changed. -/
theorem wordBlockAttack_nonpositive_budget_witness :
    (0 : Int) ≤ 0 ∧
    DoWordBlockAttack [97] [⟨[97], [[98]]⟩] emptyLegend 0 [] = (false, emptyLegend, []) :=
  ⟨by decide, wordBlockAttack_nonpositive_budget [97] [⟨[97], [[98]]⟩] emptyLegend 0 [] (by decide)⟩

/-- C10: incorporating two strings of unequal length fails, and since the
length check precedes the character loop the legend is returned exactly as
it was. -/
theorem incorporate_length_mismatch_atomic (ct pt : List Int) (map : Legend)
    (h : ct.length ≠ pt.length) :
    IncorporateCypherToPlainMapInLegend ct pt map = (false, map) := by
  simp only [IncorporateCypherToPlainMapInLegend]
  rw [if_pos h]

/-- C10 witness: a one-character cipher string against an empty plain string
fails and leaves the empty legend intact. -/
theorem incorporate_length_mismatch_atomic_witness :
    [(97 : Int)].length ≠ ([] : List Int).length ∧
    IncorporateCypherToPlainMapInLegend [97] [] emptyLegend = (false, emptyLegend) :=
  ⟨by decide, incorporate_length_mismatch_atomic [97] [] emptyLegend (by decide)⟩

theorem wbaLoop_nonfinal_frame (ict cw : List Int) (w2 : CW) (rest : List CW) :
    ∀ (cands : List (List Int)) (map : Legend) (maxSec : Int) (st : List (List Int)),
      (wbaLoop ict cw (w2 :: rest) cands map maxSec st).2.1 = map := by
  intro cands
  induction cands with
  | nil =>
    intro map maxSec st
    rw [wbaLoop.eq_def]
  | cons c cs ih =>
    intro map maxSec st
    rw [wbaLoop.eq_def]
    by_cases hc : CanCypherAndLegendMakePlain cw map c false = true
    · by_cases ht : maxSec - elapsedTime ≤ 0
      · simp [hc, ht]
      · rcases hinc : IncorporateCypherToPlainMapInLegend cw c map with ⟨b, ng⟩
        cases b
        · by_cases h2 : elapsedTime ≥ maxSec
          · simp [hc, ht, hinc, h2]
          · simp [hc, ht, hinc, h2, ih]
        · by_cases h2 : elapsedTime ≥ maxSec
          · simp [hc, ht, hinc, h2]
          · simp [hc, ht, hinc, h2, ih]
    · by_cases h2 : elapsedTime ≥ maxSec
      · simp [hc, h2]
      · simp [hc, h2, ih]

/-- C2 (amended): at a call of the Word-Block solver that still has at least
two cipherwords ahead of it, the legend handed in by the caller is returned
with its 26 slots exactly as they were: every speculative extension there is
applied to a fresh duplicate whose effect stays local to its branch.  Only a
call sitting at the final cipherword incorporates candidates directly into
the caller-owned legend and may mutate it. -/
theorem wordBlockAttack_nonfinal_frame (ict : List Int) (cw w2 : CW) (rest : List CW)
    (map : Legend) (maxSec : Int) (st : List (List Int)) :
    (DoWordBlockAttack ict (cw :: w2 :: rest) map maxSec st).2.1 = map := by
  rw [DoWordBlockAttack.eq_def]
  by_cases h : maxSec ≤ 0
  · simp [h]
  · simp [h, wbaLoop_nonfinal_frame]

/-- C2 counterexample: a Word-Block call whose depth is already the final
cipherword incorporates candidates directly into the legend handed in by the
caller, with no duplicate, so even a failed branch mutates it: with one
cipherword ab, the single candidate cc and an empty legend, incorporation
assigns c to slot a and then fails on the injectivity check at b, and the
call returns with the caller-owned legend partially mutated (slot a holds c)
although no solution was found. -/
theorem wordBlockAttack_mutates_caller_counterexample :
    (DoWordBlockAttack [97, 98] [⟨[97, 98], [[99, 99]]⟩] emptyLegend 10 []).2.1 ≠
      emptyLegend := by
  norm_num [DoWordBlockAttack.eq_def, wbaLoop.eq_def, elapsedTime,
    CanCypherAndLegendMakePlain, canMapLoop, IncorporateCypherToPlainMapInLegend, incorpLoop,
    CypherToPlainString, CypherToPlainChar, tolowerC, islowerC, isupperC, ispunctC, emptyLegend]
  decide

/-- C3: the Frequency-Attack test adds the full decoding to the collection
exactly when the accept condition holds, namely at least one cipherword is
fully decoded to one of its candidates or no cipherword misses, and the
decoded string is not already collected; a decoding already present leaves
the collection unchanged. -/
theorem testFreqAttackLegend_accept_iff (ws : List CW) (ict : List Int) (map : Legend)
    (st : List (List Int)) :
    TestFreqAttackLegend ws ict map st =
      if ((∃ w ∈ ws, IsCypherwordDecryptedByLegend w map = true) ∨
          (∀ w ∈ ws, IsCypherwordDecryptedByLegend w map = true)) ∧
         CypherToPlainString map ict ∉ st
      then st ++ [CypherToPlainString map ict] else st := by
  have key : (ws.countP (fun w => IsCypherwordDecryptedByLegend w map) > 0 ||
        !ws.any (fun w => !IsCypherwordDecryptedByLegend w map)) = true ↔
      ((∃ w ∈ ws, IsCypherwordDecryptedByLegend w map = true) ∨
       (∀ w ∈ ws, IsCypherwordDecryptedByLegend w map = true)) := by
    simp [List.countP_pos_iff, List.any_eq_true]
  simp only [TestFreqAttackLegend]
  by_cases hcond : (∃ w ∈ ws, IsCypherwordDecryptedByLegend w map = true) ∨
      (∀ w ∈ ws, IsCypherwordDecryptedByLegend w map = true)
  · rw [if_pos (key.mpr hcond)]
    by_cases hmem : CypherToPlainString map ict ∈ st
    · rw [if_pos hmem, if_neg (by simp [hmem])]
    · rw [if_neg hmem, if_pos ⟨hcond, hmem⟩]
  · rw [if_neg (fun hb => hcond (key.mp hb)), if_neg (fun hb => hcond hb.1)]

theorem list_all_congr {α : Type} (l : List α) (f g : α → Bool)
    (h : ∀ a ∈ l, f a = g a) : l.all f = l.all g := by
  induction l with
  | nil => rfl
  | cons x xs ih =>
    simp only [List.all_cons]
    rw [h x (by simp), ih (fun a ha => h a (by simp [ha]))]

/-- C7: the pattern matcher is symmetric on equal-length strings: the
repetition-structure mismatch test is invariant under swapping the two
strings. -/
theorem doPatternsMatch_symm (x y : List Int) (h : x.length = y.length) :
    DoPatternsMatch (some x) (some y) = DoPatternsMatch (some y) (some x) := by
  simp only [DoPatternsMatch]
  rw [h]
  apply congrArg
  apply list_all_congr
  intro i _
  apply list_all_congr
  intro j _
  by_cases hij : i < j
  · rw [if_pos hij, if_pos hij, Bool.or_comm]
  · rw [if_neg hij, if_neg hij]

/-- C7 witness: concrete equal-length strings ab and cc give the same
pattern verdict in both argument orders. -/
theorem doPatternsMatch_symm_witness :
    [(97 : Int), 98].length = [(99 : Int), 99].length ∧
    DoPatternsMatch (some [97, 98]) (some [99, 99]) =
      DoPatternsMatch (some [99, 99]) (some [97, 98]) :=
  ⟨by decide, doPatternsMatch_symm [97, 98] [99, 99] (by decide)⟩

theorem ppc_alpha (map : Legend) {c : Int} (hc : isalphaC c = true) :
    CypherToPlainChar map (tolowerC c) = legendSlot map c := by
  rcases isalphaC_eq_true.mp hc with h | h
  · rw [tolowerC_of_upper h, ctpc_lower map (by omega) (by omega)]
    simp only [legendSlot]
    rw [tolowerC_of_upper h, tolowerC_of_not_upper (by omega)]
  · rw [tolowerC_of_not_upper (by omega), ctpc_lower map h.1 h.2]

theorem ppc_not_alpha (map : Legend) {c : Int} (hc : isalphaC c = false) :
    CypherToPlainChar map (tolowerC c) = c := by
  have hna : ¬((65 ≤ c ∧ c ≤ 90) ∨ (97 ≤ c ∧ c ≤ 122)) := fun hcon => by
    simp [isalphaC_eq_true.mpr hcon] at hc
  rw [tolowerC_of_not_upper (by omega)]
  exact ctpc_not_alpha map hc

theorem forall_lt_succ_cons {n : Nat} (P : Nat → Prop) :
    (∀ i, i < n + 1 → P i) ↔ P 0 ∧ ∀ i, i < n → P (i + 1) := by
  constructor
  · intro h
    exact ⟨h 0 (by omega), fun i hi => h (i + 1) (by omega)⟩
  · rintro ⟨h0, hs⟩ i hi
    cases i with
    | zero => exact h0
    | succ k => exact hs k (by omega)

theorem canMapLoop_iff (map : Legend) (mb : Bool) :
    ∀ (ct pt : List Int), ct.length = pt.length →
      (canMapLoop map mb ct pt = true ↔
        ∀ i, i < ct.length →
          (CypherToPlainChar map (tolowerC (ct.getD i 0)) = 0 → mb = false) ∧
          (CypherToPlainChar map (tolowerC (ct.getD i 0)) ≠ 0 →
            tolowerC (CypherToPlainChar map (tolowerC (ct.getD i 0))) =
              tolowerC (pt.getD i 0))) := by
  intro ct
  induction ct with
  | nil =>
    intro pt h
    simp [canMapLoop]
  | cons c cs ih =>
    intro pt h
    cases pt with
    | nil => simp at h
    | cons p ps =>
      have hlen : cs.length = ps.length := by simpa using h
      rw [canMapLoop]
      by_cases h1 : CypherToPlainChar map (tolowerC c) = 0 ∧ mb = true
      · rw [if_pos h1]
        simp only [Bool.false_eq_true, false_iff, not_forall]
        refine ⟨0, by simp, fun hP => ?_⟩
        have := hP.1 (by simpa using h1.1)
        rw [h1.2] at this
        exact absurd this (by simp)
      · rw [if_neg h1]
        by_cases h2 : CypherToPlainChar map (tolowerC c) ≠ 0 ∧
            tolowerC (CypherToPlainChar map (tolowerC c)) ≠ tolowerC p
        · rw [if_pos h2]
          simp only [Bool.false_eq_true, false_iff, not_forall]
          refine ⟨0, by simp, fun hP => ?_⟩
          have := hP.2 (by simpa using h2.1)
          simp only [List.getD_cons_zero] at this
          exact absurd this h2.2
        · rw [if_neg h2]
          rw [ih ps hlen]
          constructor
          · intro hrec i hi
            cases i with
            | zero =>
              simp only [List.getD_cons_zero]
              refine ⟨fun hz => ?_, fun hnz => ?_⟩
              · by_cases hmb : mb = true
                · exact absurd ⟨hz, hmb⟩ h1
                · simpa using hmb
              · by_cases hagree : tolowerC (CypherToPlainChar map (tolowerC c)) = tolowerC p
                · exact hagree
                · exact absurd ⟨hnz, hagree⟩ h2
            | succ k =>
              simp only [List.getD_cons_succ]
              exact hrec k (by simpa using hi)
          · intro hP i hi
            have := hP (i + 1) (by simpa using hi)
            simpa only [List.getD_cons_succ] using this

/-- C4 (amended): with mustBeComplete, CanCypherAndLegendMakePlain rejects
any equal-length pair containing an alphabetic cipher character whose legend
slot is unassigned.  Without mustBeComplete, the pair is accepted exactly
when no position disagrees, where assigned alphabetic cipher characters must
match the plaintext case-insensitively, unassigned alphabetic ones are
non-contradicting holes, and non-alphabetic cipher characters must equal the
lowercased plaintext character literally (the claim wrongly treated those
positions as unconstrained holes too). -/
theorem canMakePlain_semantics (ct pt : List Int) (map : Legend)
    (hlen : ct.length = pt.length) (h0 : ∀ c ∈ ct, c ≠ 0) :
    ((∃ i, i < ct.length ∧ isalphaC (ct.getD i 0) = true ∧
        legendSlot map (ct.getD i 0) = 0) →
      CanCypherAndLegendMakePlain ct map pt true = false) ∧
    (CanCypherAndLegendMakePlain ct map pt false = true ↔
      ∀ i, i < ct.length →
        (isalphaC (ct.getD i 0) = true → legendSlot map (ct.getD i 0) ≠ 0 →
          tolowerC (legendSlot map (ct.getD i 0)) = tolowerC (pt.getD i 0)) ∧
        (isalphaC (ct.getD i 0) = false → ct.getD i 0 = tolowerC (pt.getD i 0))) := by
  have hwrap : ∀ mb, CanCypherAndLegendMakePlain ct map pt mb = canMapLoop map mb ct pt := by
    intro mb
    simp only [CanCypherAndLegendMakePlain]
    rw [if_neg (by omega)]
  constructor
  · rintro ⟨i, hi, halpha, hslot⟩
    rw [hwrap]
    by_contra hne
    have htrue : canMapLoop map true ct pt = true := by
      cases hcl : canMapLoop map true ct pt
      · exact absurd hcl hne
      · rfl
    have := ((canMapLoop_iff map true ct pt hlen).mp htrue i hi).1
    rw [ppc_alpha map halpha, hslot] at this
    exact absurd (this rfl) (by simp)
  · rw [hwrap, canMapLoop_iff map false ct pt hlen]
    constructor
    · intro hall i hi
      have hmem : ct.getD i 0 ∈ ct := by
        rw [List.getD_eq_getElem _ _ hi]
        exact List.getElem_mem hi
      refine ⟨fun halpha hslot => ?_, fun hna => ?_⟩
      · have := (hall i hi).2
        rw [ppc_alpha map halpha] at this
        exact this hslot
      · have := (hall i hi).2
        rw [ppc_not_alpha map hna] at this
        have hcz := h0 _ hmem
        have hup : ¬(65 ≤ ct.getD i 0 ∧ ct.getD i 0 ≤ 90) := fun hcon =>
          absurd (isalphaC_eq_true.mpr (Or.inl hcon)) (by rw [hna]; simp)
        rw [tolowerC_of_not_upper hup] at this
        exact this hcz
    · intro hall i hi
      have hmem : ct.getD i 0 ∈ ct := by
        rw [List.getD_eq_getElem _ _ hi]
        exact List.getElem_mem hi
      by_cases halpha : isalphaC (ct.getD i 0) = true
      · rw [ppc_alpha map halpha]
        refine ⟨fun _ => rfl, fun hnz => (hall i hi).1 halpha hnz⟩
      · have hna : isalphaC (ct.getD i 0) = false := by
          cases hav : isalphaC (ct.getD i 0)
          · rfl
          · exact absurd hav halpha
        rw [ppc_not_alpha map hna]
        have hup : ¬(65 ≤ ct.getD i 0 ∧ ct.getD i 0 ≤ 90) := fun hcon =>
          absurd (isalphaC_eq_true.mpr (Or.inl hcon)) halpha
        refine ⟨fun hz => absurd hz (h0 _ hmem), fun _ => ?_⟩
        rw [tolowerC_of_not_upper hup]
        exact (hall i hi).2 hna

/-- C4 witness: the single-letter cipher a with the legend mapping a to b
accepts the plaintext b without completeness. -/
theorem canMakePlain_semantics_witness :
    CanCypherAndLegendMakePlain [97] legendAB [98] false = true :=
  (canMakePlain_semantics [97] [98] legendAB (by decide) (by decide)).2.mpr (by decide)

/-- C4 counterexample: the pair period versus a on the empty legend has no
position whose cipher character the legend maps, so the claim says the pair
must be accepted without completeness, yet the code rejects it because the
non-alphabetic cipher character is compared literally with the plaintext. -/
theorem canMakePlain_punct_counterexample :
    NoMappedDisagreement [46] [97] emptyLegend ∧
    [(46 : Int)].length = [(97 : Int)].length ∧
    CanCypherAndLegendMakePlain [46] emptyLegend [97] false = false := by
  refine ⟨?_, by decide, by decide⟩
  intro i hi halpha
  simp only [List.length_singleton] at hi
  have hz : i = 0 := by omega
  subst hz
  exact absurd halpha (by decide)

theorem backSearch_mem {l : List Int} {v : Int} (h : v ∈ l) :
    ∃ i, backSearch l v = some i ∧ i < l.length ∧ l.getD i 0 = v := by
  induction l with
  | nil => simp at h
  | cons a t ih =>
    by_cases ha : a = v
    · exact ⟨0, by simp [backSearch, ha], by simp, by simp [ha]⟩
    · have hv : v ∈ t := by
        rcases List.mem_cons.mp h with h1 | h1
        · exact absurd h1.symm ha
        · exact h1
      obtain ⟨i, hbs, hlt, hget⟩ := ih hv
      refine ⟨i + 1, ?_, by simp only [List.length_cons]; omega, ?_⟩
      · simp [backSearch, ha, hbs]
      · simpa only [List.getD_cons_succ] using hget

theorem roundtrip_char (map : Legend) (h26 : map.length = 26)
    (hsurj : ∀ k : Nat, k < 26 → ((k : Int) + 97) ∈ map)
    {c : Int} (hc : isalphaC c = true) :
    CypherToPlainChar map (PlainToCypherChar map c) = c := by
  rcases isalphaC_eq_true.mp hc with h | h
  · have hl : tolowerC c = c + 32 := tolowerC_of_upper h
    have hmem : (c + 32) ∈ map := by
      have h1 := hsurj (c + 32 - 97).toNat (by omega)
      have h2 : ((c + 32 - 97).toNat : Int) + 97 = c + 32 := by omega
      rwa [h2] at h1
    obtain ⟨i, hbs, hlt, hget⟩ := backSearch_mem hmem
    have hi26 : i < 26 := by omega
    have hup : isupperC c = true := isupperC_eq_true.mpr h
    have hlw : islowerC (c + 32) = true := islowerC_eq_true.mpr (by omega)
    have hptc : PlainToCypherChar map c = (i : Int) + 97 + (-32) := by
      simp [PlainToCypherChar, hup, hl, hlw, hbs]
    rw [hptc]
    have he : (i : Int) + 97 + (-32) = (i : Int) + 65 := by ring
    rw [he, ctpc_upper map (by omega) (by omega)]
    have hsl : legendSlot map ((i : Int) + 65) = map.getD i 0 := by
      rw [legendSlot, tolowerC_of_upper (by constructor <;> omega)]
      congr 1
      omega
    rw [hsl, hget]
    ring
  · have hmem : c ∈ map := by
      have h1 := hsurj (c - 97).toNat (by omega)
      have h2 : ((c - 97).toNat : Int) + 97 = c := by omega
      rwa [h2] at h1
    obtain ⟨i, hbs, hlt, hget⟩ := backSearch_mem hmem
    have hi26 : i < 26 := by omega
    have hup : isupperC c = false := by simp [isupperC]; omega
    have hlw : islowerC c = true := islowerC_eq_true.mpr h
    have hptc : PlainToCypherChar map c = (i : Int) + 97 + 0 := by
      simp [PlainToCypherChar, hup, hlw, hbs]
    rw [hptc]
    have he : (i : Int) + 97 + 0 = (i : Int) + 97 := by ring
    rw [he, ctpc_lower map (by omega) (by omega)]
    have hsl : legendSlot map ((i : Int) + 97) = map.getD i 0 := by
      rw [legendSlot, tolowerC_of_not_upper (by omega)]
      congr 1
      omega
    rw [hsl, hget]

/-- C8: for a legend whose 26 slots form a full bijection onto the lowercase
alphabet, encoding any alphabetic string with PlainToCypherString and
decoding the result with CypherToPlainString gives the original string
back. -/
theorem legend_round_trip (map : Legend) (h26 : map.length = 26)
    (_hrange : ∀ v ∈ map, 97 ≤ v ∧ v ≤ 122) (_hnodup : map.Nodup)
    (hsurj : ∀ k : Nat, k < 26 → ((k : Int) + 97) ∈ map)
    (P : List Int) (hP : ∀ c ∈ P, isalphaC c = true) :
    CypherToPlainString map (PlainToCypherString map P) = P := by
  induction P with
  | nil => rfl
  | cons c cs ih =>
    have hstep : PlainToCypherString map (c :: cs) =
        PlainToCypherChar map c :: PlainToCypherString map cs := rfl
    rw [hstep]
    have hstep2 : CypherToPlainString map
        (PlainToCypherChar map c :: PlainToCypherString map cs) =
        CypherToPlainChar map (PlainToCypherChar map c) ::
          CypherToPlainString map (PlainToCypherString map cs) := rfl
    rw [hstep2, roundtrip_char map h26 hsurj (hP c (by simp)),
      ih (fun a ha => hP a (by simp [ha]))]

/-- C8 witness: the identity bijection legend round-trips the alphabetic
string Ab, uppercase included. -/
theorem legend_round_trip_witness :
    CypherToPlainString idLegend (PlainToCypherString idLegend [65, 98]) = [65, 98] :=
  legend_round_trip idLegend (by decide) (by decide) (by decide) (by decide) [65, 98]
    (by decide)

theorem getD_set_self {l : List Int} {i : Nat} {v : Int} (h : i < l.length) :
    (l.set i v).getD i 0 = v := by
  rw [List.getD_eq_getElem _ _ (by simpa using h)]
  simp [List.getElem_set]

theorem getD_set_other {l : List Int} (i j : Nat) {v : Int} (hne : i ≠ j) :
    (l.set i v).getD j 0 = l.getD j 0 := by
  by_cases hj : j < l.length
  · rw [List.getD_eq_getElem _ _ (by simpa using hj), List.getD_eq_getElem _ _ hj]
    simp [List.getElem_set, hne]
  · rw [List.getD_eq_default _ _ (by simp only [List.length_set]; omega),
      List.getD_eq_default _ _ (by omega)]

theorem alpha_tolower_range {c : Int} (hc : isalphaC c = true) :
    97 ≤ tolowerC c ∧ tolowerC c ≤ 122 := by
  rcases isalphaC_eq_true.mp hc with h | h
  · rw [tolowerC_of_upper h]; omega
  · rw [tolowerC_of_not_upper (by omega)]; omega

theorem punct_tolower {c : Int} (hc : ispunctC c = true) : tolowerC c = c := by
  have := ispunctC_eq_true.mp hc
  rw [tolowerC_of_not_upper (by omega)]

theorem wf_not_punct_alpha {c : Int} (hwf : WFc c) (hnp : ispunctC (tolowerC c) = false) :
    isalphaC c = true := by
  rcases hwf with h | h
  · exact h
  · rw [punct_tolower h, h] at hnp
    exact absurd hnp (by simp)

theorem legendInjective_of_getD_eq {m1 m2 : Legend}
    (h : ∀ k, k < 26 → m1.getD k 0 = m2.getD k 0) (h2 : LegendInjective m2) :
    LegendInjective m1 := by
  intro i hi j hj hne hnz
  rw [h i hi] at hnz
  rw [h i hi, h j hj]
  exact h2 i hi j hj hne hnz

theorem legendInjective_set {m : Legend} (h26 : m.length = 26) (hinj : LegendInjective m)
    {idx : Nat} (hidx : idx < 26) {pc : Int}
    (hfree : ∀ j, j < 26 → m.getD j 0 ≠ pc) :
    LegendInjective (m.set idx pc) := by
  intro i hi j hj hne hnz
  by_cases hii : i = idx
  · subst hii
    rw [getD_set_self (by omega)]
    rw [getD_set_other _ _ (fun hcon => hne hcon)]
    exact fun hcon => hfree j hj hcon.symm
  · rw [getD_set_other _ _ (fun hcon => hii hcon.symm)] at hnz ⊢
    by_cases hjj : j = idx
    · subst hjj
      rw [getD_set_self (by omega)]
      exact hfree i hi
    · rw [getD_set_other _ _ (fun hcon => hjj hcon.symm)]
      exact hinj i hi j hj hne hnz

theorem incorpLoop_preserves :
    ∀ (ct pt : List Int) (m m2 : Legend), m.length = 26 → LegendInjective m →
      WFText ct → WFText pt → incorpLoop ct pt m = (true, m2) →
      LegendInjective m2 ∧ m2.length = 26 := by
  intro ct
  induction ct with
  | nil =>
    intro pt m m2 h26 hinj _ _ hrun
    rw [incorpLoop] at hrun
    obtain ⟨-, rfl⟩ := Prod.mk.injEq .. ▸ hrun
    exact ⟨hinj, h26⟩
  | cons c cs ih =>
    intro pt m m2 h26 hinj hwfc hwfp hrun
    cases pt with
    | nil =>
      rw [incorpLoop] at hrun
      obtain ⟨-, rfl⟩ := Prod.mk.injEq .. ▸ hrun
      exact ⟨hinj, h26⟩
    | cons p ps =>
      rw [incorpLoop] at hrun
      by_cases hpm : ((ispunctC (tolowerC c) && !ispunctC (tolowerC p)) ||
          (!ispunctC (tolowerC c) && ispunctC (tolowerC p))) = true
      · rw [if_pos hpm] at hrun
        simp at hrun
      · rw [if_neg hpm] at hrun
        by_cases hboth : (ispunctC (tolowerC c) && ispunctC (tolowerC p)) = true
        · rw [if_pos hboth] at hrun
          exact ih ps m m2 h26 hinj (fun a ha => hwfc a (by simp [ha]))
            (fun a ha => hwfp a (by simp [ha])) hrun
        · rw [if_neg hboth] at hrun
          have hnp : ispunctC (tolowerC c) = false ∧ ispunctC (tolowerC p) = false := by
            cases h1 : ispunctC (tolowerC c) <;> cases h2 : ispunctC (tolowerC p) <;>
              simp_all
          have hca : isalphaC c = true := wf_not_punct_alpha (hwfc c (by simp)) hnp.1
          have hpa : isalphaC p = true := wf_not_punct_alpha (hwfp p (by simp)) hnp.2
          have hcr := alpha_tolower_range hca
          have hpr := alpha_tolower_range hpa
          have hidx : (tolowerC c - 97).toNat < 26 := by omega
          have hlen2 : (m.set (tolowerC c - 97).toNat (tolowerC p)).length = 26 := by
            simp [List.length_set, h26]
          by_cases hslot : m.getD (tolowerC c - 97).toNat 0 ≠ 0
          · rw [if_pos hslot] at hrun
            by_cases hagree : m.getD (tolowerC c - 97).toNat 0 ≠ tolowerC p
            · rw [if_pos hagree] at hrun
              simp at hrun
            · rw [if_neg hagree] at hrun
              push_neg at hagree
              have hpt : ∀ k, k < 26 →
                  (m.set (tolowerC c - 97).toNat (tolowerC p)).getD k 0 = m.getD k 0 := by
                intro k hk
                by_cases hkk : k = (tolowerC c - 97).toNat
                · subst hkk
                  rw [getD_set_self (by omega), hagree]
                · exact getD_set_other _ _ (fun hcon => hkk hcon.symm)
              exact ih ps _ m2 hlen2 (legendInjective_of_getD_eq hpt hinj)
                (fun a ha => hwfc a (by simp [ha])) (fun a ha => hwfp a (by simp [ha])) hrun
          · rw [if_neg hslot] at hrun
            by_cases hscan : (List.range 26).any (fun j => m.getD j 0 == tolowerC p) = true
            · rw [if_pos hscan] at hrun
              simp at hrun
            · rw [if_neg hscan] at hrun
              have hfree : ∀ j, j < 26 → m.getD j 0 ≠ tolowerC p := by
                intro j hj hcon
                exact hscan (List.any_eq_true.mpr ⟨j, List.mem_range.mpr hj,
                  beq_iff_eq.mpr hcon⟩)
              exact ih ps _ m2 hlen2
                (legendInjective_set h26 hinj hidx hfree)
                (fun a ha => hwfc a (by simp [ha])) (fun a ha => hwfp a (by simp [ha])) hrun

theorem incorporateSeq_preserves :
    ∀ (qs : List (List Int × List Int)) (m m2 : Legend), m.length = 26 →
      LegendInjective m → (∀ q ∈ qs, WFText q.1 ∧ WFText q.2) →
      incorporateSeq qs m = some m2 → LegendInjective m2 ∧ m2.length = 26 := by
  intro qs
  induction qs with
  | nil =>
    intro m m2 h26 hinj _ hrun
    rw [incorporateSeq] at hrun
    obtain rfl := Option.some.injEq .. ▸ hrun
    exact ⟨hinj, h26⟩
  | cons q rest ih =>
    intro m m2 h26 hinj hwf hrun
    obtain ⟨ct, pt⟩ := q
    rw [incorporateSeq] at hrun
    rcases hstep : IncorporateCypherToPlainMapInLegend ct pt m with ⟨b, mm⟩
    rw [hstep] at hrun
    cases b
    · simp at hrun
    · have hloop : ct.length = pt.length ∧ incorpLoop ct pt m = (true, mm) := by
        by_cases hl : ct.length ≠ pt.length
        · rw [IncorporateCypherToPlainMapInLegend, if_pos hl] at hstep
          simp at hstep
        · rw [IncorporateCypherToPlainMapInLegend, if_neg hl] at hstep
          exact ⟨by omega, hstep⟩
      obtain ⟨hinj2, h262⟩ := incorpLoop_preserves ct pt m mm h26 hinj
        (hwf (ct, pt) (by simp)).1 (hwf (ct, pt) (by simp)).2 hloop.2
      exact ih mm m2 h262 hinj2 (fun r hr => hwf r (by simp [hr])) hrun

/-- C1: starting from a legend in which no plain letter occupies two cipher
slots, any sequence of IncorporateCypherToPlainMapInLegend calls that all
succeed leaves a legend in which still no two of the 26 cipher slots hold
the same plain letter.  The texts are restricted to letters and punctuation,
the character set the solver feeds into incorporate (anything else would
index the C slot array out of range). -/
theorem incorporate_seq_preserves_injectivity (qs : List (List Int × List Int))
    (m m2 : Legend) (h26 : m.length = 26) (hinj : LegendInjective m)
    (hwf : ∀ q ∈ qs, WFText q.1 ∧ WFText q.2)
    (hrun : incorporateSeq qs m = some m2) : LegendInjective m2 :=
  (incorporateSeq_preserves qs m m2 h26 hinj hwf hrun).1

/-- C1 witness: incorporating the pair ab to cd into the empty legend
succeeds and the resulting legend keeps the injectivity invariant. -/
theorem incorporate_seq_preserves_injectivity_witness :
    incorporateSeq [([97, 98], [99, 100])] emptyLegend =
      some ((99 : Int) :: 100 :: List.replicate 24 0) ∧
    LegendInjective ((99 : Int) :: 100 :: List.replicate 24 0) :=
  ⟨by decide, incorporate_seq_preserves_injectivity [([97, 98], [99, 100])] emptyLegend
    ((99 : Int) :: 100 :: List.replicate 24 0) (by decide) (by decide) (by decide)
    (by decide)⟩

end Quip
